import Mathlib

set_option maxRecDepth 100000

/-!
# Verification of the blockchain ledger core (`src/utils/crypto.js`,
`src/controllers/blockchainController.js`, models in `src/models/`)

Shallow embedding of the repository's ledger core in Lean 4.

Modelling conventions:
* JS strings are Lean `String`s; the payloads hashed and signed here are
  ASCII, so `Char.toNat` coincides with the UTF-8 bytes Node's
  `hash.update(string)` consumes.
* JS numbers used for monetary amounts are modelled as exact rationals
  (`Rat`); all concrete inputs used in proofs are exactly representable as
  binary floats, where JS arithmetic is exact.
* `Date` values are carried as their serialized strings: a block's
  `timestamp` field holds the `Date#toString` rendering interpolated by
  `calculateBlockHash`, and a transaction's `timestamp` field holds the
  `Date#toISOString` rendering interpolated into signature payloads.
* RSA signature verification (Node `crypto.createVerify`) is an
  uninterpreted parameter `VerifierImpl`: it either throws (malformed key
  or signature material) or returns a boolean, exactly the interface
  `CryptoUtils.verifySignature` wraps.
* Unbounded JS loops (the proof-of-work `do/while`, the Merkle recursion,
  SHA-256 chunk processing) are embedded with an explicit fuel argument
  large enough to cover every run the source can perform.
-/

/-! ## SHA-256 (the `crypto.createHash('sha256')` primitive)

A byte is a `Nat < 256`, a word a `Nat < 2^32`; overflow is explicit via
`% 4294967296`. -/

def w32 : Nat := 4294967296

def rotr32 (x n : Nat) : Nat := ((x >>> n) ||| (x <<< (32 - n))) % w32

def smallSigma0 (x : Nat) : Nat := (rotr32 x 7) ^^^ (rotr32 x 18) ^^^ (x >>> 3)

def smallSigma1 (x : Nat) : Nat := (rotr32 x 17) ^^^ (rotr32 x 19) ^^^ (x >>> 10)

def bigSigma0 (x : Nat) : Nat := (rotr32 x 2) ^^^ (rotr32 x 13) ^^^ (rotr32 x 22)

def bigSigma1 (x : Nat) : Nat := (rotr32 x 6) ^^^ (rotr32 x 11) ^^^ (rotr32 x 25)

def chFn (e f g : Nat) : Nat := (e &&& f) ^^^ ((e ^^^ 4294967295) &&& g)

def majFn (a b c : Nat) : Nat := (a &&& b) ^^^ (a &&& c) ^^^ (b &&& c)

/-- The 64 SHA-256 round constants (given in decimal). -/
def sha256K : List Nat :=
  [1116352408, 1899447441, 3049323471, 3921009573, 961987163, 1508970993,
   2453635748, 2870763221, 3624381080, 310598401, 607225278, 1426881987,
   1925078388, 2162078206, 2614888103, 3248222580, 3835390401, 4022224774,
   264347078, 604807628, 770255983, 1249150122, 1555081692, 1996064986,
   2554220882, 2821834349, 2952996808, 3210313671, 3336571891, 3584528711,
   113926993, 338241895, 666307205, 773529912, 1294757372, 1396182291,
   1695183700, 1986661051, 2177026350, 2456956037, 2730485921, 2820302411,
   3259730800, 3345764771, 3516065817, 3600352804, 4094571909, 275423344,
   430227734, 506948616, 659060556, 883997877, 958139571, 1322822218,
   1537002063, 1747873779, 1955562222, 2024104815, 2227730452, 2361852424,
   2428436474, 2756734187, 3204031479, 3329325298]

structure Digest8 where
  d0 : Nat
  d1 : Nat
  d2 : Nat
  d3 : Nat
  d4 : Nat
  d5 : Nat
  d6 : Nat
  d7 : Nat
deriving DecidableEq, Repr

/-- The initial SHA-256 state (given in decimal). -/
def sha256H0 : Digest8 :=
  ⟨1779033703, 3144134277, 1013904242, 2773480762,
   1359893119, 2600822924, 528734635, 1541459225⟩

/-- Big-endian rendering of `n` into exactly `k` bytes. -/
def natToBytesBE : Nat → Nat → List Nat
  | 0, _ => []
  | k + 1, n => natToBytesBE k (n / 256) ++ [n % 256]

/-- Group bytes into big-endian 32-bit words (4 bytes per word). -/
def bytesToWords : List Nat → List Nat
  | a :: b :: c :: d :: rest => (a * 16777216 + b * 65536 + c * 256 + d) :: bytesToWords rest
  | _ => []

/-- Extend a 16-word message schedule by `fuel` further words. -/
def extendSchedule : Nat → List Nat → List Nat
  | 0, w => w
  | fuel + 1, w =>
      let t := (smallSigma1 (w.getD (w.length - 2) 0) + w.getD (w.length - 7) 0 +
                smallSigma0 (w.getD (w.length - 15) 0) + w.getD (w.length - 16) 0) % w32
      extendSchedule fuel (w ++ [t])

structure CompSt where
  a : Nat
  b : Nat
  c : Nat
  d : Nat
  e : Nat
  f : Nat
  g : Nat
  h : Nat

def compressRound (s : CompSt) (k : Nat) (wt : Nat) : CompSt :=
  let t1 := (s.h + bigSigma1 s.e + chFn s.e s.f s.g + k + wt) % w32
  let t2 := (bigSigma0 s.a + majFn s.a s.b s.c) % w32
  ⟨(t1 + t2) % w32, s.a, s.b, s.c, (s.d + t1) % w32, s.e, s.f, s.g⟩

def compressBlock (hs : Digest8) (block : List Nat) : Digest8 :=
  let w := extendSchedule 48 (bytesToWords block)
  let init : CompSt := ⟨hs.d0, hs.d1, hs.d2, hs.d3, hs.d4, hs.d5, hs.d6, hs.d7⟩
  let s := (List.zip sha256K w).foldl (fun st kw => compressRound st kw.1 kw.2) init
  ⟨(hs.d0 + s.a) % w32, (hs.d1 + s.b) % w32, (hs.d2 + s.c) % w32, (hs.d3 + s.d) % w32,
   (hs.d4 + s.e) % w32, (hs.d5 + s.f) % w32, (hs.d6 + s.g) % w32, (hs.d7 + s.h) % w32⟩

/-- SHA-256 padding: `0x80`, zeros to 56 mod 64, 8-byte big-endian bit length. -/
def padMessage (msg : List Nat) : List Nat :=
  msg ++ [128] ++ List.replicate ((119 - msg.length % 64) % 64) 0 ++ natToBytesBE 8 (msg.length * 8)

/-- Process the padded message in 64-byte chunks; the fuel (instantiated at
the padded length, far above the chunk count) makes the loop structural. -/
def processChunks : Nat → Digest8 → List Nat → Digest8
  | 0, hs, _ => hs
  | fuel + 1, hs, msg =>
      if msg.isEmpty then hs
      else processChunks fuel (compressBlock hs (msg.take 64)) (msg.drop 64)

def sha256Digest (msg : List Nat) : Digest8 :=
  processChunks (padMessage msg).length sha256H0 (padMessage msg)

def sha256Bytes (msg : List Nat) : List Nat :=
  let d := sha256Digest msg
  natToBytesBE 4 d.d0 ++ natToBytesBE 4 d.d1 ++ natToBytesBE 4 d.d2 ++ natToBytesBE 4 d.d3 ++
  natToBytesBE 4 d.d4 ++ natToBytesBE 4 d.d5 ++ natToBytesBE 4 d.d6 ++ natToBytesBE 4 d.d7

def hexDigitChar (n : Nat) : Char := if n < 10 then Char.ofNat (48 + n) else Char.ofNat (87 + n)

def byteToHex (b : Nat) : List Char := [hexDigitChar (b / 16), hexDigitChar (b % 16)]

def bytesToHexStr (bs : List Nat) : String := String.mk (bs.map byteToHex).flatten

/-- UTF-8 bytes of the (ASCII) payloads consumed by `hash.update(string)`. -/
def strToBytes (s : String) : List Nat := s.data.map Char.toNat

/-- `crypto.createHash('sha256').update(s).digest('hex')`. -/
def sha256hex (s : String) : String := bytesToHexStr (sha256Bytes (strToBytes s))

/- Batteries marks `Rat.add`/`Rat.sub`/`Rat.neg`/`Rat.mul` irreducible, which
blocks kernel evaluation of concrete balances; restore reducibility so that
`decide` can evaluate the embedded ledger on concrete inputs. -/
set_option allowUnsafeReducibility true in
attribute [semireducible] Rat.add Rat.sub Rat.neg Rat.mul

/-! ## Number and date rendering

JS template literals interpolate numbers via `Number#toString`. The
monetary values and counters this API handles are rendered as plain
decimals; `natToStr` and `numToStr` reproduce that for naturals and for
terminating rationals (every concrete value in this development). -/

def natDigits : Nat → Nat → List Char
  | 0, _ => []
  | fuel + 1, n => if n = 0 then [] else natDigits fuel (n / 10) ++ [Char.ofNat (48 + n % 10)]

/-- Decimal rendering of a natural, as JS `${n}`. -/
def natToStr (n : Nat) : String := if n = 0 then "0" else String.mk (natDigits n n)

/-- Fractional digits of `num/den < 1`, stopping when the remainder is 0. -/
def fracDigits : Nat → Nat → Nat → List Char
  | 0, _, _ => []
  | fuel + 1, num, den =>
      if num = 0 then []
      else Char.ofNat (48 + num * 10 / den) :: fracDigits fuel (num * 10 % den) den

/-- Decimal rendering of a (terminating) rational, as JS `${x}` renders the
finite binary floats used for amounts and fees (`10` ↦ `"10"`,
`0.001` ↦ `"0.001"`). -/
def numToStr (q : Rat) : String :=
  (if q.num < 0 then "-" else "") ++
  natToStr (q.num.natAbs / q.den) ++
  (if q.num.natAbs % q.den = 0 then ""
   else "." ++ String.mk (fracDigits 64 (q.num.natAbs % q.den) q.den))

/-! ## `CryptoUtils` (src/utils/crypto.js) -/

/-- The Node RSA verifier behind `crypto.createVerify('SHA256')`: on
(data, signature, publicKey) it either throws (`Except.error`, malformed
key or signature material) or returns a boolean. Left uninterpreted. -/
def VerifierImpl : Type := String → String → String → Except String Bool

/-- `CryptoUtils.verifySignature` (crypto.js lines 41-50): runs the
verifier inside `try`/`catch`, mapping any thrown error to `false`. -/
def verifySignature (impl : VerifierImpl) (data sig publicKey : String) : Bool :=
  match impl data sig publicKey with
  | Except.ok b => b
  | Except.error _ => false

/-- One pairing pass of `CryptoUtils.calculateMerkleRoot` (crypto.js lines
70-77): `left = hashes[i]`, `right = hashes[i + 1] || left` — the JS `||`
falls back to `left` both when `i + 1` is out of range (odd count) and
when `hashes[i + 1]` is the falsy empty string. -/
def pairUpStep : List String → List String
  | [] => []
  | [left] => [sha256hex (left ++ left)]
  | left :: right :: rest =>
      sha256hex (left ++ (if right = "" then left else right)) :: pairUpStep rest

/-- The recursion of `calculateMerkleRoot`; the fuel (instantiated at the
input length, which dominates the recursion depth since each pass at least
halves a list of length ≥ 2) makes it structural. -/
def merkleAux : Nat → List String → String
  | 0, _ => sha256hex ""
  | fuel + 1, hashes =>
      if hashes.length = 0 then sha256hex ""
      else if hashes.length = 1 then hashes.headD ""
      else merkleAux fuel (pairUpStep hashes)

/-- `CryptoUtils.calculateMerkleRoot` (crypto.js lines 61-80). -/
def calculateMerkleRoot (hashes : List String) : String := merkleAux hashes.length hashes

/-- `CryptoUtils.calculateBlockHash` (crypto.js lines 83-86):
`sha256(`${index}${previousHash}${timestamp}${merkleRoot}${nonce}`)`. -/
def calculateBlockHash (index : Nat) (previousHash timestamp merkleRoot : String) (nonce : Nat) : String :=
  sha256hex (natToStr index ++ previousHash ++ timestamp ++ merkleRoot ++ natToStr nonce)

/-- `'0'.repeat(difficulty)`, the proof-of-work target. -/
def zerosStr (d : Nat) : String := String.mk (List.replicate d '0')

def charsPrefixOf : List Char → List Char → Bool
  | [], _ => true
  | _ :: _, [] => false
  | p :: ps, c :: cs => p = c && charsPrefixOf ps cs

/-- JS `hash.startsWith(target)` (equivalently Lean `String.startsWith`,
re-implemented over the character lists so it evaluates in the kernel). -/
def strStartsWith (s pre : String) : Bool := charsPrefixOf pre.data s.data

/-- The `do { nonce++; hash = ... } while (!hash.startsWith(target))` loop
of `CryptoUtils.mineBlock` (crypto.js lines 89-100), with fuel: `none`
models a search still running after `fuel` attempts. -/
def mineBlockLoop : Nat → Nat → String → String → String → Nat → Nat → Option (String × Nat)
  | 0, _, _, _, _, _, _ => none
  | fuel + 1, index, previousHash, timestamp, merkleRoot, difficulty, nonce =>
      let nonce1 := nonce + 1
      let hash := calculateBlockHash index previousHash timestamp merkleRoot nonce1
      if strStartsWith hash (zerosStr difficulty) then some (hash, nonce1)
      else mineBlockLoop fuel index previousHash timestamp merkleRoot difficulty nonce1

/-- `CryptoUtils.mineBlock`: the nonce counter starts at 0 and is
incremented before the first attempt. -/
def mineBlockPow (fuel index : Nat) (previousHash timestamp merkleRoot : String) (difficulty : Nat) : Option (String × Nat) :=
  mineBlockLoop fuel index previousHash timestamp merkleRoot difficulty 0

/-! ## Data model (src/models: Transaction, Wallet, Block) -/

inductive TxStatus where
  | pending
  | confirmed
  | failed
deriving DecidableEq, Repr

/-- A Transaction document. `timestamp` holds the `Date#toISOString`
rendering interpolated into signature payloads; `blockId` is the model of
the `blockId` reference (the index of the sealing block). -/
structure Tx where
  fromWallet : String
  toWallet : String
  amount : Rat
  fee : Rat
  signature : String
  timestamp : String
  status : TxStatus
  blockId : Option Nat
  hash : String
deriving DecidableEq, Repr

/-- A Wallet document (the fields the ledger core reads). -/
structure WalletM where
  publicKey : String
  balance : Rat
deriving DecidableEq, Repr

/-- `Wallet.findOne({ address })`: wallets are an association list keyed by
address (the schema declares `address` unique). -/
def findWallet (ws : List (String × WalletM)) (addr : String) : Option WalletM :=
  (ws.find? (fun p => p.1 = addr)).map Prod.snd

/-- `walletSchema.methods.canSpend` (Wallet model lines 57-59):
`this.balance >= amount`. -/
def canSpend (w : WalletM) (amount : Rat) : Bool := w.balance ≥ amount

/-- `walletSchema.methods.updateBalance`: `this.balance += amount`,
applied to the wallet(s) stored under `addr`. -/
def updateWalletBalance (ws : List (String × WalletM)) (addr : String) (delta : Rat) :
    List (String × WalletM) :=
  ws.map (fun p => if p.1 = addr then (p.1, ⟨p.2.publicKey, p.2.balance + delta⟩) else p)

/-- A Block document. `timestamp` holds the `Date#toString` rendering
interpolated by `calculateBlockHash`; `txs` is the populated
`transactions` array. -/
structure BlockM where
  index : Nat
  timestamp : String
  txs : List Tx
  transactionCount : Nat
  previousHash : String
  hash : String
  nonce : Nat
  merkleRoot : String
  difficulty : Nat
deriving DecidableEq, Repr

/-! ## Signature payloads

`createTransaction` (TransactionController line 71) signs
`${fromWallet}${toWallet}${amount}${fee}${timestamp.toISOString()}${nonce}`;
`mineBlock` (line 205) and `validateBlockchain` (line 477) verify against
`${fromWallet}${toWallet}${amount}${fee}${timestamp.toISOString()}`. -/

/-- The payload string signed at transaction creation. -/
def signPayloadCreate (fromW toW : String) (amount fee : Rat) (tsISO : String) (nonce : Nat) : String :=
  fromW ++ toW ++ numToStr amount ++ numToStr fee ++ tsISO ++ natToStr nonce

/-- The payload string re-verified at sealing and at validation. -/
def sealPayload (fromW toW : String) (amount fee : Rat) (tsISO : String) : String :=
  fromW ++ toW ++ numToStr amount ++ numToStr fee ++ tsISO

/-- `sealPayload` applied to a stored transaction's fields. -/
def txPayload (tx : Tx) : String :=
  sealPayload tx.fromWallet tx.toWallet tx.amount tx.fee tx.timestamp

/-! ## The ledger orchestrator (`BlockchainController`) -/

/-- The chain state the controller reads and writes: the stored blocks in
index order and the wallet collection. -/
structure ChainState where
  blocks : List BlockM
  wallets : List (String × WalletM)
deriving DecidableEq, Repr

/-- The pre-mining admission filter of `mineBlock` (controller lines
198-216): a pending transaction is kept when both wallets exist, the
source wallet `canSpend(amount + fee)` (against its stored balance — the
batch's earlier selections are not deducted), and the stored signature
verifies against the source wallet's current public key; otherwise it is
marked failed and dropped. -/
def selectValid (impl : VerifierImpl) (ws : List (String × WalletM)) : List Tx → List Tx
  | [] => []
  | tx :: rest =>
      match findWallet ws tx.fromWallet, findWallet ws tx.toWallet with
      | some src, some _ =>
          if canSpend src (tx.amount + tx.fee) then
            if verifySignature impl (txPayload tx) tx.signature src.publicKey then
              tx :: selectValid impl ws rest
            else selectValid impl ws rest
          else selectValid impl ws rest
      | _, _ => selectValid impl ws rest

/-- The genesis `previousHash` sentinel (controller lines 195 and 541). -/
def genesisSentinel : String :=
  "0000000000000000000000000000000000000000000000000000000000000000"

/-- The balance-update half of the post-mining loop (controller lines
255-264): per included transaction, debit the source wallet by
`amount + fee`, then credit the destination wallet by `amount`. -/
def applyTxBalances (ws : List (String × WalletM)) (tx : Tx) : List (String × WalletM) :=
  updateWalletBalance (updateWalletBalance ws tx.fromWallet (-(tx.amount + tx.fee))) tx.toWallet tx.amount

def commitBalances (ws : List (String × WalletM)) (txs : List Tx) : List (String × WalletM) :=
  txs.foldl applyTxBalances ws

inductive MineError where
  | noPendingTransactions
  | noValidTransactions
  | miningIncomplete
deriving DecidableEq, Repr

instance {e a : Type} [DecidableEq e] [DecidableEq a] : DecidableEq (Except e a) := fun x y =>
  match x, y with
  | Except.error u, Except.error v =>
      if h : u = v then isTrue (h ▸ rfl) else isFalse (fun hc => h (Except.error.inj hc))
  | Except.ok u, Except.ok v =>
      if h : u = v then isTrue (h ▸ rfl) else isFalse (fun hc => h (Except.ok.inj hc))
  | Except.error _, Except.ok _ => isFalse (fun hc => Except.noConfusion hc)
  | Except.ok _, Except.error _ => isFalse (fun hc => Except.noConfusion hc)

/-- `BlockchainController.mineBlock` (controller lines 179-265) as a state
transition: `pending` is the result of `Transaction.getPending()`,
`timestamp` the `Date#toString` rendering of the mining time, and the
result pairs the post-call state with the sealed block or the error
(errors leave the stored blocks and balances untouched; `getLatest`, the
highest-index block, is the last block since blocks are appended in index
order). `miningIncomplete` models a proof-of-work search still running
after `fuel` nonce attempts. -/
def mineBlockStep (impl : VerifierImpl) (fuel : Nat) (s : ChainState) (pending : List Tx)
    (timestamp : String) (difficulty : Nat) : ChainState × Except MineError BlockM :=
  if pending.isEmpty then (s, Except.error MineError.noPendingTransactions)
  else
    let latest := s.blocks.getLast?
    let newIndex := match latest with
      | some b => b.index + 1
      | none => 0
    let previousHash := match latest with
      | some b => b.hash
      | none => genesisSentinel
    let validTransactions := selectValid impl s.wallets pending
    if validTransactions.isEmpty then (s, Except.error MineError.noValidTransactions)
    else
      let merkleRoot := calculateMerkleRoot (validTransactions.map Tx.hash)
      match mineBlockPow fuel newIndex previousHash timestamp merkleRoot difficulty with
      | none => (s, Except.error MineError.miningIncomplete)
      | some (hash, nonce) =>
          let newBlock : BlockM :=
            ⟨newIndex, timestamp, validTransactions, validTransactions.length,
             previousHash, hash, nonce, merkleRoot, difficulty⟩
          (⟨s.blocks ++ [newBlock], commitBalances s.wallets validTransactions⟩, Except.ok newBlock)

/-! ## `validateBlockchain` (controller lines 405-526) -/

inductive VError where
  | indexMismatch (expected got : Nat)
  | prevHashMismatch (expected got : String)
  | hashMismatch (expected got : String)
  | merkleMismatch (expected got : String)
  | invalidSignature (txHash : String)
deriving DecidableEq, Repr

/-- The per-transaction signature re-check (controller lines 474-484): a
transaction whose source wallet is missing is skipped. -/
def txSigErrors (impl : VerifierImpl) (ws : List (String × WalletM)) : List Tx → List VError
  | [] => []
  | tx :: rest =>
      (match findWallet ws tx.fromWallet with
       | some w =>
           if verifySignature impl (txPayload tx) tx.signature w.publicKey then []
           else [VError.invalidSignature tx.hash]
       | none => []) ++ txSigErrors impl ws rest

/-- The per-block checks (controller lines 435-493): index contiguity,
previous-hash linkage (skipped for position 0), block-hash recomputation,
Merkle-root recomputation, transaction signatures. -/
def blockErrors (impl : VerifierImpl) (ws : List (String × WalletM)) (i : Nat)
    (prev : Option BlockM) (b : BlockM) : List VError :=
  (if b.index ≠ i then [VError.indexMismatch i b.index] else []) ++
  (match prev with
   | some pb => if b.previousHash ≠ pb.hash then [VError.prevHashMismatch pb.hash b.previousHash] else []
   | none => []) ++
  (let computed := calculateBlockHash b.index b.previousHash b.timestamp b.merkleRoot b.nonce
   if b.hash ≠ computed then [VError.hashMismatch computed b.hash] else []) ++
  (let computedRoot := calculateMerkleRoot (b.txs.map Tx.hash)
   if b.merkleRoot ≠ computedRoot then [VError.merkleMismatch computedRoot b.merkleRoot] else []) ++
  txSigErrors impl ws b.txs

/-- One entry of `validationErrors`: pushed only for blocks whose error
list is non-empty. -/
structure VEntry where
  blockIndex : Nat
  blockHash : String
  errors : List VError
deriving DecidableEq, Repr

def validateAux (impl : VerifierImpl) (ws : List (String × WalletM)) :
    Nat → Option BlockM → List BlockM → List VEntry
  | _, _, [] => []
  | i, prev, b :: rest =>
      (let errs := blockErrors impl ws i prev b
       if errs.isEmpty then [] else [⟨b.index, b.hash, errs⟩]) ++
      validateAux impl ws (i + 1) (some b) rest

/-- `validateBlockchain`: walk the stored blocks in index order against
the current wallet collection. -/
def validateBlockchain (impl : VerifierImpl) (s : ChainState) : List VEntry :=
  validateAux impl s.wallets 0 none s.blocks

/-- `isValid`: no block produced any error (an empty chain is also
reported valid, matching the early return). -/
def isValidChain (impl : VerifierImpl) (s : ChainState) : Bool :=
  (validateBlockchain impl s).isEmpty

/-! ## Genesis (controller lines 529-555) -/

/-- `Date('2024-01-01T00:00:00.000Z')#toString` as interpolated by
`calculateBlockHash` on a UTC-configured deployment. -/
def genesisTimestampStr : String := "Mon Jan 01 2024 00:00:00 GMT+0000 (Coordinated Universal Time)"

/-- The hard-coded genesis `hash` constant (controller line 542). -/
def genesisHashConst : String :=
  "000000000019d6689c085ae165831e934ff763ae46a2a6c172b3f1b60a8ce26f"

/-- The genesis block created by `initializeGenesis` (controller lines
536-546). -/
def genesisBlock : BlockM :=
  ⟨0, genesisTimestampStr, [], 0, genesisSentinel, genesisHashConst, 0, calculateMerkleRoot [], 4⟩

/-- The state right after `initializeGenesis` on a fresh deployment with
wallet collection `ws`. -/
def initialState (ws : List (String × WalletM)) : ChainState := ⟨[genesisBlock], ws⟩

/-- The chains reachable from a freshly initialized deployment through the
`seal_block`+`commit` path alone (`mineBlock` calls over whatever pending
transactions the pool holds at each call). -/
inductive Reachable (impl : VerifierImpl) : ChainState → Prop where
  | genesis (ws : List (String × WalletM)) : Reachable impl (initialState ws)
  | sealStep {s : ChainState} {pending : List Tx} {ts : String} {d fuel : Nat}
      {s1 : ChainState} {b : BlockM} :
      Reachable impl s →
      mineBlockStep impl fuel s pending ts d = (s1, Except.ok b) →
      Reachable impl s1

/-! ## The spec's Merkle reduction (§4.2), for comparison with the code

A second definition following the specification's words: pair up
sequentially, pair the last unpaired hash with itself for an odd count,
hash each concatenation, recurse until one hash remains. -/

def specPairUp : List String → List String
  | [] => []
  | [last] => [sha256hex (last ++ last)]
  | left :: right :: rest => sha256hex (left ++ right) :: specPairUp rest

def specMerkleAux : Nat → List String → String
  | 0, _ => sha256hex ""
  | fuel + 1, hashes =>
      if hashes.length = 0 then sha256hex ""
      else if hashes.length = 1 then hashes.headD ""
      else specMerkleAux fuel (specPairUp hashes)

def specMerkleRoot (hashes : List String) : String := specMerkleAux hashes.length hashes

/-! ## The commit loop as a sequence of primitive writes (for atomicity)

The post-mining loop (controller lines 251-265) issues, per included
transaction, three individually-persisted writes with no surrounding
transaction: `tx.confirm(newBlock._id)` (Transaction model lines 69-73),
then `updateBalance` on the source wallet, then on the destination wallet.
A failure thrown at any point leaves every earlier write persisted, so the
observable post-failure state is the execution of a prefix of the write
sequence. -/

inductive CommitOp where
  | confirmTx (txHash : String) (blockIndex : Nat)
  | updBal (addr : String) (delta : Rat)
deriving DecidableEq, Repr

/-- The write sequence the commit loop issues for `valid` transactions
sealed into block `blockIndex`. -/
def commitOps (valid : List Tx) (blockIndex : Nat) : List CommitOp :=
  valid.flatMap (fun tx =>
    [CommitOp.confirmTx tx.hash blockIndex,
     CommitOp.updBal tx.fromWallet (-(tx.amount + tx.fee)),
     CommitOp.updBal tx.toWallet tx.amount])

/-- The transaction store and wallet collection the commit writes touch. -/
structure CommitState where
  txs : List Tx
  wallets : List (String × WalletM)
deriving DecidableEq, Repr

def applyCommitOp (st : CommitState) : CommitOp → CommitState
  | CommitOp.confirmTx h bIdx =>
      ⟨st.txs.map (fun t =>
          if t.hash = h then { t with status := TxStatus.confirmed, blockId := some bIdx } else t),
       st.wallets⟩
  | CommitOp.updBal a delta => ⟨st.txs, updateWalletBalance st.wallets a delta⟩

def runCommitOps (st : CommitState) (ops : List CommitOp) : CommitState :=
  ops.foldl applyCommitOp st

/-- The state observable when the commit loop fails after its first `k`
primitive writes succeeded (`k = 3 * valid.length` is the completed
commit). -/
def commitUpTo (st : CommitState) (valid : List Tx) (blockIndex k : Nat) : CommitState :=
  runCommitOps st ((commitOps valid blockIndex).take k)

def lookupTx (txs : List Tx) (h : String) : Option Tx := txs.find? (fun t => t.hash = h)

/-- The cumulative effect of a completed commit on one stored transaction:
confirmed with `blockId` set when its hash is in the sealed batch,
untouched otherwise. -/
def confirmEntry (hashes : List String) (bIdx : Nat) (t : Tx) : Tx :=
  if t.hash ∈ hashes then { t with status := TxStatus.confirmed, blockId := some bIdx } else t

def findBalance (ws : List (String × WalletM)) (addr : String) : Option Rat :=
  (findWallet ws addr).map WalletM.balance

/-- Total `amount` received by `addr` across `txs`. -/
def addrInflow (txs : List Tx) (addr : String) : Rat :=
  ((txs.filter (fun t => t.toWallet = addr)).map Tx.amount).sum

/-- Total `amount + fee` sent by `addr` across `txs` (also the per-sender
total of a sealing batch). -/
def addrOutflow (txs : List Tx) (addr : String) : Rat :=
  ((txs.filter (fun t => t.fromWallet = addr)).map (fun t => t.amount + t.fee)).sum

/-! ## Chain-shape invariants kept by the seal+commit path -/

/-- The hash the next block must link to after prefix `bs` (chain head
hash, or `ph` when `bs` is empty). -/
def endHash (ph : String) (bs : List BlockM) : String :=
  match bs.getLast? with
  | some b => b.hash
  | none => ph

/-- Blocks `bs` sit at consecutive indices from `i`, link back to `ph`,
and each recomputes its own hash and Merkle root and re-verifies its
transactions' signatures against the wallet collection `ws`. -/
def goodBlocksFrom (impl : VerifierImpl) (ws : List (String × WalletM)) :
    Nat → String → List BlockM → Prop
  | _, _, [] => True
  | i, ph, b :: rest =>
      b.index = i ∧ b.previousHash = ph ∧
      b.hash = calculateBlockHash b.index b.previousHash b.timestamp b.merkleRoot b.nonce ∧
      b.merkleRoot = calculateMerkleRoot (b.txs.map Tx.hash) ∧
      txSigErrors impl ws b.txs = [] ∧
      goodBlocksFrom impl ws (i + 1) b.hash rest

/-- A state whose chain is the genesis block followed by a well-linked,
self-consistent tail. -/
def goodChain (impl : VerifierImpl) (s : ChainState) : Prop :=
  ∃ rest, s.blocks = genesisBlock :: rest ∧
    goodBlocksFrom impl s.wallets 1 genesisHashConst rest

/-- What `calculateBlockHash` returns for the genesis block's stored
fields (the value `validateBlockchain` compares the stored constant to). -/
def genesisComputedHash : String :=
  calculateBlockHash 0 genesisSentinel genesisTimestampStr (calculateMerkleRoot []) 0

/-- The single validation entry every seal-built chain produces: the
genesis block's hard-coded hash never matches its recomputation. -/
def genesisEntry : VEntry :=
  ⟨0, genesisHashConst, [VError.hashMismatch genesisComputedHash genesisHashConst]⟩

/-! ## Concrete fixtures for witnesses and counterexamples -/

/-- A verifier for which every well-formed check succeeds. -/
def implOk : VerifierImpl := fun _ _ _ => Except.ok true

/-- A verifier whose key material always fails to parse. -/
def implRaises : VerifierImpl := fun _ _ _ => Except.error "unsupported key"

def walletsAB : List (String × WalletM) := [("addrA", ⟨"pkA", 10⟩), ("addrB", ⟨"pkB", 0⟩)]

def txA1 : Tx := ⟨"addrA", "addrB", 10, 0, "sigA1", "tsA1", TxStatus.pending, none, "hashA1"⟩

def txA2 : Tx := ⟨"addrA", "addrB", 10, 0, "sigA2", "tsA2", TxStatus.pending, none, "hashA2"⟩

/-- The block `mineBlock` seals from `txA1` on top of genesis (difficulty
0, so the first nonce attempt succeeds). -/
def blk1 : BlockM :=
  ⟨1, "t2", [txA1], 1, genesisHashConst,
   calculateBlockHash 1 genesisHashConst "t2" "hashA1" 1, 1, "hashA1", 0⟩

/-- The chain state after sealing `blk1` onto a fresh deployment. -/
def chain2 : ChainState := ⟨[genesisBlock, blk1], commitBalances walletsAB [txA1]⟩

/-! # Theorems -/

/-! ## Generic helper lemmas -/

theorem natToBytesBE_length : ∀ k n : Nat, (natToBytesBE k n).length = k
  | 0, _ => rfl
  | k + 1, n => by simp [natToBytesBE, natToBytesBE_length k]

theorem sha256Bytes_length (msg : List Nat) : (sha256Bytes msg).length = 32 := by
  simp [sha256Bytes, natToBytesBE_length]

theorem bytesToHexStr_length (bs : List Nat) : (bytesToHexStr bs).length = 2 * bs.length := by
  induction bs with
  | nil => rfl
  | cons b rest ih =>
      simp [bytesToHexStr, byteToHex, String.length] at ih ⊢
      omega

theorem sha256hex_length (s : String) : (sha256hex s).length = 64 := by
  simp [sha256hex, bytesToHexStr_length, sha256Bytes_length]

theorem sha256hex_ne_empty (s : String) : sha256hex s ≠ "" := by
  intro h
  have hl := congrArg String.length h
  rw [sha256hex_length] at hl
  simp at hl

theorem natToStr_length_pos (n : Nat) : 0 < (natToStr n).length := by
  cases n with
  | zero => decide
  | succ k =>
      simp [natToStr, natDigits, String.length]

/-! ## C3: the signed payload vs the verified payload -/

/-- C3: the payload signed at transaction creation
(`${fromWallet}${toWallet}${amount}${fee}${timestamp}${nonce}`) is never
the payload later verified at sealing and validation (the same fields
without the nonce): the nonce's decimal rendering is a non-empty suffix,
so the two canonical encodings differ on every input. -/
theorem signPayload_ne_sealPayload (fromW toW ts : String) (amount fee : Rat) (nonce : Nat) :
    signPayloadCreate fromW toW amount fee ts nonce ≠ sealPayload fromW toW amount fee ts := by
  intro h
  have hlen := congrArg String.length h
  simp [signPayloadCreate, sealPayload, String.length_append] at hlen
  have := natToStr_length_pos nonce
  omega

/-! ## C9: verification is total -/

/-- C9: `verifySignature` wraps the Node verifier in `try`/`catch`: it
returns `true` exactly when the underlying verifier parses its material
and reports success; on any thrown parse error, and on verification
failure, it returns `false` rather than raising. -/
theorem verifySignature_total (impl : VerifierImpl) (data sig key : String) :
    verifySignature impl data sig key = true ↔ impl data sig key = Except.ok true := by
  unfold verifySignature
  cases h : impl data sig key with
  | ok b => cases b <;> simp
  | error e => simp

/-! ## C7: proof-of-work soundness -/

theorem mineBlockLoop_spec : ∀ fuel index : Nat, ∀ ph ts mr : String, ∀ d n0 : Nat,
    ∀ hash : String, ∀ nonce : Nat,
    mineBlockLoop fuel index ph ts mr d n0 = some (hash, nonce) →
    strStartsWith hash (zerosStr d) = true ∧ hash = calculateBlockHash index ph ts mr nonce := by
  intro fuel
  induction fuel with
  | zero => intro index ph ts mr d n0 hash nonce h; exact absurd h (by simp [mineBlockLoop])
  | succ f ih =>
      intro index ph ts mr d n0 hash nonce h
      simp only [mineBlockLoop] at h
      split at h
      · rcases h with ⟨rfl, rfl⟩
        exact ⟨by assumption, rfl⟩
      · exact ih index ph ts mr d (n0 + 1) hash nonce h

/-- C7: whenever the proof-of-work search returns `(hash, nonce)`, the
hash meets the difficulty target (that many leading `'0'` characters) and
recomputing `calculateBlockHash` at the returned nonce reproduces it
exactly. -/
theorem mineBlockPow_spec (fuel index : Nat) (ph ts mr : String) (d : Nat)
    (hash : String) (nonce : Nat)
    (h : mineBlockPow fuel index ph ts mr d = some (hash, nonce)) :
    strStartsWith hash (zerosStr d) = true ∧ hash = calculateBlockHash index ph ts mr nonce :=
  mineBlockLoop_spec fuel index ph ts mr d 0 hash nonce h

/-- Witness for C7 at a concrete search (difficulty 0, found at nonce 1). -/
theorem mineBlockPow_spec_witness :
    strStartsWith (calculateBlockHash 5 "p" "t" "m" 1) (zerosStr 0) = true ∧
    calculateBlockHash 5 "p" "t" "m" 1 = calculateBlockHash 5 "p" "t" "m" 1 :=
  mineBlockPow_spec 1 5 "p" "t" "m" 0 (calculateBlockHash 5 "p" "t" "m" 1) 1 (by decide)

/-! ## C8: the duplicate-last rule on a 3-element input -/

/-- Fuel-generic form of the duplicate-last rule for a 3-element input. -/
theorem merkleAux_dup_last (fuel : Nat) (a b c : String) :
    merkleAux (fuel + 3) [a, b, c] = merkleAux (fuel + 4) [a, b, c, c] := by
  simp [merkleAux, pairUpStep, ite_self]

/-- C8: for any three hashes, the Merkle root of `[a, b, c]` equals the
root of `[a, b, c, c]` — the odd count pairs the last hash with itself. -/
theorem merkleRoot_duplicate_last (a b c : String) :
    calculateMerkleRoot [a, b, c] = calculateMerkleRoot [a, b, c, c] := by
  show merkleAux (0 + 3) [a, b, c] = merkleAux (0 + 4) [a, b, c, c]
  exact merkleAux_dup_last 0 a b c

/-! ## C6: the Merkle reduction matches its specification -/

theorem pairUpStep_eq_specPairUp : ∀ l : List String, (∀ x ∈ l, x ≠ "") →
    pairUpStep l = specPairUp l
  | [], _ => rfl
  | [a], _ => rfl
  | a :: b :: rest, h => by
      have hb : b ≠ "" := h b (by simp)
      simp [pairUpStep, specPairUp, hb,
            pairUpStep_eq_specPairUp rest (fun x hx => h x (by simp [hx]))]

theorem specPairUp_ne_empty : ∀ l : List String, ∀ x, x ∈ specPairUp l → x ≠ ""
  | [], x, hx => by simp [specPairUp] at hx
  | [a], x, hx => by
      simp [specPairUp] at hx
      subst hx
      exact sha256hex_ne_empty _
  | a :: b :: rest, x, hx => by
      simp only [specPairUp, List.mem_cons] at hx
      rcases hx with h | h
      · subst h; exact sha256hex_ne_empty _
      · exact specPairUp_ne_empty rest x h

theorem merkleAux_eq_specMerkleAux : ∀ fuel : Nat, ∀ l : List String, (∀ x ∈ l, x ≠ "") →
    merkleAux fuel l = specMerkleAux fuel l
  | 0, _, _ => rfl
  | fuel + 1, l, h => by
      simp only [merkleAux, specMerkleAux]
      by_cases h0 : l.length = 0
      · simp [h0]
      · by_cases h1 : l.length = 1
        · simp [h0, h1]
        · simp only [h0, h1, if_false]
          rw [pairUpStep_eq_specPairUp l h]
          exact merkleAux_eq_specMerkleAux fuel (specPairUp l) (specPairUp_ne_empty l)

/-- C6: on sequences of digests (non-empty strings — every real hash is 64
hex characters), `calculateMerkleRoot` computes exactly the reduction the
specification describes: empty input gives the digest of the empty string,
a single element is returned unchanged, and otherwise adjacent hashes are
paired left-to-right (the last one with itself when the count is odd),
each pair replaced by the digest of `left ++ right`, recursing until a
single digest remains. (The restriction to non-empty strings is forced by
the JS `hashes[i + 1] || left` fallback, which also treats a falsy empty
string as missing.) -/
theorem calculateMerkleRoot_spec (hashes : List String) (h : ∀ x ∈ hashes, x ≠ "") :
    calculateMerkleRoot hashes = specMerkleRoot hashes := by
  unfold calculateMerkleRoot specMerkleRoot
  exact merkleAux_eq_specMerkleAux hashes.length hashes h

/-- Witness for C6 on a concrete 3-element input. -/
theorem calculateMerkleRoot_spec_witness :
    calculateMerkleRoot ["aa", "bb", "cc"] = specMerkleRoot ["aa", "bb", "cc"] :=
  calculateMerkleRoot_spec ["aa", "bb", "cc"] (by decide)

/-! ## C2: the admission filter and same-block double-spends -/

/-- C2 counterexample: with sender `addrA` holding balance 10, the filter
admits two pending transactions of `amount 10, fee 0` each — the
per-sender batch total (20) exceeds the start-of-batch balance (10),
because `canSpend` is checked against the stored balance without
deducting earlier selections of the same batch. -/
theorem selectValid_batch_overspend :
    selectValid implOk walletsAB [txA1, txA2] = [txA1, txA2] ∧
    findBalance walletsAB "addrA" = some 10 ∧
    addrOutflow (selectValid implOk walletsAB [txA1, txA2]) "addrA" = 20 ∧
    ¬(addrOutflow (selectValid implOk walletsAB [txA1, txA2]) "addrA" ≤ 10) := by
  refine ⟨by decide, by decide, by decide, by decide⟩

/-- C2 amended: each transaction selected for the next block individually
satisfies the eligibility checks — both wallets exist, the sender's
start-of-batch balance covers its own `amount + fee`, and its signature
verifies — but other selections of the same batch are not deducted, so a
sender's selected total may exceed its balance. -/
theorem selectValid_member_spec (impl : VerifierImpl) (ws : List (String × WalletM))
    (pending : List Tx) (tx : Tx) (h : tx ∈ selectValid impl ws pending) :
    ∃ src, findWallet ws tx.fromWallet = some src ∧
      (∃ dst, findWallet ws tx.toWallet = some dst) ∧
      tx.amount + tx.fee ≤ src.balance ∧
      verifySignature impl (txPayload tx) tx.signature src.publicKey = true := by
  induction pending with
  | nil => simp [selectValid] at h
  | cons t rest ih =>
      rw [selectValid] at h
      split at h
      case h_1 src dst hsrc hdst =>
        split at h
        · split at h
          · rcases List.mem_cons.mp h with rfl | hmem
            · refine ⟨src, hsrc, ⟨dst, hdst⟩, ?_, by assumption⟩
              have hc : canSpend src (tx.amount + tx.fee) = true := by assumption
              simpa [canSpend, ge_iff_le] using hc
            · exact ih hmem
          · exact ih h
        · exact ih h
      case h_2 => exact ih h

/-- Witness for C2's amended theorem on a concrete selected transaction. -/
theorem selectValid_member_spec_witness :
    ∃ src, findWallet walletsAB txA1.fromWallet = some src ∧
      (∃ dst, findWallet walletsAB txA1.toWallet = some dst) ∧
      txA1.amount + txA1.fee ≤ src.balance ∧
      verifySignature implOk (txPayload txA1) txA1.signature src.publicKey = true :=
  selectValid_member_spec implOk walletsAB [txA1] txA1 (by decide)

/-! ## C10: sealing with nothing minable -/

/-- C10: when no pending transaction survives the admission filter (in
particular when there are no pending transactions at all), `mineBlock`
aborts with the corresponding error response and returns the chain state
unchanged — no block is created or persisted. -/
theorem mineBlock_no_eligible (impl : VerifierImpl) (fuel : Nat) (s : ChainState)
    (pending : List Tx) (ts : String) (d : Nat)
    (h : selectValid impl s.wallets pending = []) :
    mineBlockStep impl fuel s pending ts d =
      (s, Except.error (if pending.isEmpty then MineError.noPendingTransactions
                        else MineError.noValidTransactions)) := by
  by_cases hp : pending.isEmpty
  · simp [mineBlockStep, hp]
  · simp [mineBlockStep, hp, h]

/-- Witness for C10: a pending transaction from an unknown wallet fails
the filter; sealing aborts and the chain (genesis only) is unchanged. -/
theorem mineBlock_no_eligible_witness :
    mineBlockStep implOk 5 (initialState []) [txA1] "ts" 4 =
      (initialState [], Except.error (if ([txA1] : List Tx).isEmpty
        then MineError.noPendingTransactions else MineError.noValidTransactions)) :=
  mineBlock_no_eligible implOk 5 (initialState []) [txA1] "ts" 4 (by decide)

/-! ## C4: genesis constants -/

/-- C4 counterexample: the genesis `previousHash` sentinel has exactly 64
zero characters, not 70. -/
theorem genesisSentinel_not_70_zeros :
    genesisSentinel.length = 64 ∧ genesisSentinel ≠ zerosStr 70 := by
  refine ⟨by decide, by decide⟩

/-- C4 amended: the genesis block has index 0, an empty transaction set,
the empty-sequence Merkle root, and a `previousHash` of exactly 64 zero
characters; sealing the first block onto an empty chain uses the same
64-zero sentinel as its `previousHash`. -/
theorem genesis_constants :
    genesisBlock.index = 0 ∧ genesisBlock.txs = [] ∧
    genesisBlock.merkleRoot = calculateMerkleRoot [] ∧
    genesisBlock.previousHash = genesisSentinel ∧
    genesisSentinel = zerosStr 64 ∧
    (∀ impl : VerifierImpl, ∀ fuel : Nat, ∀ ws : List (String × WalletM), ∀ pending : List Tx,
      ∀ ts : String, ∀ d : Nat, ∀ b : BlockM,
      (mineBlockStep impl fuel ⟨[], ws⟩ pending ts d).2 = Except.ok b →
      b.previousHash = genesisSentinel) := by
  refine ⟨rfl, rfl, rfl, rfl, by decide, ?_⟩
  intro impl fuel ws pending ts d b h
  rw [mineBlockStep] at h
  split at h
  · simp at h
  · simp only [List.getLast?_nil] at h
    split at h
    · simp at h
    · split at h
      · simp at h
      · have hb : b = _ := (Except.ok.inj h).symm
        subst hb
        rfl

/-- Witness for C4's sealing clause at a concrete first block. -/
theorem genesis_constants_witness :
    (⟨0, "t", [txA1], 1, genesisSentinel,
      calculateBlockHash 0 genesisSentinel "t" "hashA1" 1, 1, "hashA1", 0⟩ : BlockM).previousHash
      = genesisSentinel :=
  genesis_constants.2.2.2.2.2 implOk 1 walletsAB [txA1] "t" 0 _ (by decide)

/-! ## C5: the commit protocol is sequential, not atomic -/

theorem findWallet_update (ws : List (String × WalletM)) (b : String) (delta : Rat) (a : String) :
    findWallet (updateWalletBalance ws b delta) a =
      if a = b then (findWallet ws a).map (fun w => ⟨w.publicKey, w.balance + delta⟩)
      else findWallet ws a := by
  induction ws with
  | nil => simp [findWallet, updateWalletBalance]
  | cons p rest ih =>
      obtain ⟨x, w⟩ := p
      by_cases hxa : x = a
      · by_cases hab : a = b
        · simp [findWallet, updateWalletBalance, List.find?, hxa, hab]
        · have hxb : x ≠ b := by rw [hxa]; exact hab
          simp [findWallet, updateWalletBalance, List.find?, hxa, hab, hxb]
      · by_cases hxb : x = b
        · simp only [findWallet, updateWalletBalance, List.map_cons, if_pos hxb] at ih ⊢
          simp [List.find?, hxa] at ih ⊢
          exact ih
        · simp only [findWallet, updateWalletBalance, List.map_cons, if_neg hxb] at ih ⊢
          simp [List.find?, hxa] at ih ⊢
          exact ih

theorem findBalance_update (ws : List (String × WalletM)) (b : String) (delta : Rat) (a : String) :
    findBalance (updateWalletBalance ws b delta) a =
      if a = b then (findBalance ws a).map (fun bal => bal + delta) else findBalance ws a := by
  simp only [findBalance, findWallet_update]
  by_cases hab : a = b
  · simp [hab, Option.map_map]
    rfl
  · simp [hab]

theorem commitOps_cons (v : Tx) (rest : List Tx) (bIdx : Nat) :
    commitOps (v :: rest) bIdx =
      CommitOp.confirmTx v.hash bIdx ::
      CommitOp.updBal v.fromWallet (-(v.amount + v.fee)) ::
      CommitOp.updBal v.toWallet v.amount :: commitOps rest bIdx := by
  simp [commitOps]

theorem runCommitOps_wallets (valid : List Tx) (bIdx : Nat) : ∀ st : CommitState,
    (runCommitOps st (commitOps valid bIdx)).wallets = commitBalances st.wallets valid := by
  induction valid with
  | nil => intro st; simp [commitOps, runCommitOps, commitBalances]
  | cons v rest ih =>
      intro st
      rw [commitOps_cons]
      simp only [runCommitOps, List.foldl_cons]
      have := ih (applyCommitOp (applyCommitOp (applyCommitOp st
        (CommitOp.confirmTx v.hash bIdx)) (CommitOp.updBal v.fromWallet (-(v.amount + v.fee))))
        (CommitOp.updBal v.toWallet v.amount))
      simp only [runCommitOps] at this
      rw [this]
      simp [applyCommitOp, commitBalances, applyTxBalances]

theorem confirmEntry_step (h : String) (hs : List String) (bIdx : Nat) (t : Tx) :
    confirmEntry hs bIdx
      (if t.hash = h then { t with status := TxStatus.confirmed, blockId := some bIdx } else t)
      = confirmEntry (h :: hs) bIdx t := by
  by_cases h1 : t.hash = h
  · by_cases h2 : t.hash ∈ hs <;> simp [confirmEntry, h1, h2]
  · by_cases h2 : t.hash ∈ hs <;> simp [confirmEntry, h1, h2]

theorem runCommitOps_txs (valid : List Tx) (bIdx : Nat) : ∀ st : CommitState,
    (runCommitOps st (commitOps valid bIdx)).txs =
      st.txs.map (confirmEntry (valid.map Tx.hash) bIdx) := by
  induction valid with
  | nil =>
      intro st
      simp only [commitOps, List.flatMap_nil, runCommitOps, List.foldl_nil]
      have hid : st.txs.map (confirmEntry (List.map Tx.hash []) bIdx) = st.txs.map id :=
        List.map_congr_left (fun t _ => by simp [confirmEntry])
      rw [hid, List.map_id]
  | cons v rest ih =>
      intro st
      rw [commitOps_cons]
      simp only [runCommitOps, List.foldl_cons]
      have := ih (applyCommitOp (applyCommitOp (applyCommitOp st
        (CommitOp.confirmTx v.hash bIdx)) (CommitOp.updBal v.fromWallet (-(v.amount + v.fee))))
        (CommitOp.updBal v.toWallet v.amount))
      simp only [runCommitOps] at this
      rw [this]
      simp only [applyCommitOp, List.map_map, List.map_cons]
      apply List.map_congr_left
      intro t _
      exact confirmEntry_step v.hash (rest.map Tx.hash) bIdx t

theorem addrInflow_cons (v : Tx) (rest : List Tx) (a : String) :
    addrInflow (v :: rest) a = (if v.toWallet = a then v.amount else 0) + addrInflow rest a := by
  by_cases h : v.toWallet = a <;> simp [addrInflow, List.filter_cons, h]

theorem addrOutflow_cons (v : Tx) (rest : List Tx) (a : String) :
    addrOutflow (v :: rest) a =
      (if v.fromWallet = a then v.amount + v.fee else 0) + addrOutflow rest a := by
  by_cases h : v.fromWallet = a <;> simp [addrOutflow, List.filter_cons, h]

theorem findBalance_commitBalances (valid : List Tx) : ∀ ws : List (String × WalletM), ∀ a : String,
    findBalance (commitBalances ws valid) a =
      (findBalance ws a).map (fun bal => bal + addrInflow valid a - addrOutflow valid a) := by
  induction valid with
  | nil =>
      intro ws a
      simp only [commitBalances, List.foldl_nil, addrInflow, addrOutflow]
      cases findBalance ws a <;> simp
  | cons v rest ih =>
      intro ws a
      have step : commitBalances ws (v :: rest) = commitBalances (applyTxBalances ws v) rest := by
        simp [commitBalances]
      rw [step, ih, applyTxBalances, findBalance_update, findBalance_update,
          addrInflow_cons, addrOutflow_cons]
      by_cases hto : a = v.toWallet
      · by_cases hfrom : a = v.fromWallet
        · simp only [if_pos hto, if_pos hfrom, Option.map_map,
                     if_pos hto.symm, if_pos hfrom.symm]
          cases findBalance ws a <;> simp <;> ring
        · have h2 : ¬ v.fromWallet = a := fun hc => hfrom hc.symm
          simp only [if_pos hto, if_neg hfrom, Option.map_map, if_pos hto.symm, if_neg h2]
          cases findBalance ws a <;> simp <;> ring
      · by_cases hfrom : a = v.fromWallet
        · have h1 : ¬ v.toWallet = a := fun hc => hto hc.symm
          simp only [if_neg hto, if_pos hfrom, Option.map_map, if_neg h1, if_pos hfrom.symm]
          cases findBalance ws a <;> simp <;> ring
        · have h1 : ¬ v.toWallet = a := fun hc => hto hc.symm
          have h2 : ¬ v.fromWallet = a := fun hc => hfrom hc.symm
          simp only [if_neg hto, if_neg hfrom, if_neg h1, if_neg h2]
          cases findBalance ws a <;> simp <;> ring

/-- C5 counterexample: commit the block holding `txA1, txA2` but fail
after the first transaction's three writes (`k = 3` of 6): `txA1` is
confirmed while `txA2` is still pending, and the sender is already
debited — neither "all confirmed" nor "none confirmed with balances
unchanged", so the partially-committed state is observable. -/
theorem commit_partial_observable :
    ¬((∀ t ∈ (commitUpTo ⟨[txA1, txA2], walletsAB⟩ [txA1, txA2] 1 3).txs,
         t.status = TxStatus.confirmed) ∨
      ((∀ t ∈ (commitUpTo ⟨[txA1, txA2], walletsAB⟩ [txA1, txA2] 1 3).txs,
          t.status ≠ TxStatus.confirmed) ∧
       (commitUpTo ⟨[txA1, txA2], walletsAB⟩ [txA1, txA2] 1 3).wallets = walletsAB)) := by
  decide

/-- C5 amended: the commit loop issues its per-transaction writes
sequentially with no roll-back. When every write succeeds, each stored
transaction whose hash is in the sealed batch ends `confirmed` with
`blockId` set to the sealed block, and every wallet's balance shifts by
its net flow — credited `amount` per transaction received, debited
`amount + fee` per transaction sent. A failure partway persists exactly
the already-issued prefix of writes, so states with some included
transactions confirmed and others still pending are observable. -/
theorem commit_sequential_effects (valid : List Tx) (bIdx : Nat) (st : CommitState) :
    (runCommitOps st (commitOps valid bIdx)).txs =
      st.txs.map (confirmEntry (valid.map Tx.hash) bIdx) ∧
    (∀ a : String, findBalance (runCommitOps st (commitOps valid bIdx)).wallets a =
      (findBalance st.wallets a).map
        (fun bal => bal + addrInflow valid a - addrOutflow valid a)) := by
  refine ⟨runCommitOps_txs valid bIdx st, ?_⟩
  intro a
  rw [runCommitOps_wallets valid bIdx st, findBalance_commitBalances valid st.wallets a]

/-! ## C1: what validation reports on a chain built by seal+commit -/

theorem txSigErrors_congr (impl : VerifierImpl) (ws1 ws : List (String × WalletM))
    (hk : ∀ a, (findWallet ws1 a).map WalletM.publicKey =
               (findWallet ws a).map WalletM.publicKey) :
    ∀ txs : List Tx, txSigErrors impl ws1 txs = txSigErrors impl ws txs
  | [] => rfl
  | tx :: rest => by
      have h := hk tx.fromWallet
      rw [txSigErrors, txSigErrors, txSigErrors_congr impl ws1 ws hk rest]
      congr 1
      cases h1 : findWallet ws1 tx.fromWallet with
      | none =>
          cases h2 : findWallet ws tx.fromWallet with
          | none => rfl
          | some w => rw [h1, h2] at h; simp at h
      | some w1 =>
          cases h2 : findWallet ws tx.fromWallet with
          | none => rw [h1, h2] at h; simp at h
          | some w2 =>
              rw [h1, h2] at h
              simp at h
              simp [h]

theorem keyView_update (ws : List (String × WalletM)) (b : String) (delta : Rat) (a : String) :
    (findWallet (updateWalletBalance ws b delta) a).map WalletM.publicKey =
      (findWallet ws a).map WalletM.publicKey := by
  rw [findWallet_update]
  by_cases hab : a = b
  · simp only [if_pos hab, Option.map_map]
    cases findWallet ws a <;> simp
  · simp [hab]

theorem keyView_commitBalances (txs : List Tx) : ∀ ws : List (String × WalletM), ∀ a : String,
    (findWallet (commitBalances ws txs) a).map WalletM.publicKey =
      (findWallet ws a).map WalletM.publicKey := by
  induction txs with
  | nil => intro ws a; simp [commitBalances]
  | cons v rest ih =>
      intro ws a
      have step : commitBalances ws (v :: rest) = commitBalances (applyTxBalances ws v) rest := by
        simp [commitBalances]
      rw [step, ih, applyTxBalances, keyView_update, keyView_update]

theorem txSigErrors_selectValid (impl : VerifierImpl) (ws : List (String × WalletM)) :
    ∀ pending : List Tx, txSigErrors impl ws (selectValid impl ws pending) = []
  | [] => rfl
  | tx :: rest => by
      rw [selectValid]
      split
      · next src dst hsrc hdst =>
          split
          · split
            · next hver =>
                rw [txSigErrors, hsrc]
                simp only [hver, if_true, List.nil_append]
                exact txSigErrors_selectValid impl ws rest
            · exact txSigErrors_selectValid impl ws rest
          · exact txSigErrors_selectValid impl ws rest
      · exact txSigErrors_selectValid impl ws rest

theorem goodBlocksFrom_congr (impl : VerifierImpl) (ws1 ws : List (String × WalletM))
    (hk : ∀ a, (findWallet ws1 a).map WalletM.publicKey =
               (findWallet ws a).map WalletM.publicKey) :
    ∀ bs : List BlockM, ∀ i : Nat, ∀ ph : String,
      goodBlocksFrom impl ws i ph bs → goodBlocksFrom impl ws1 i ph bs
  | [], _, _, _ => trivial
  | b :: rest, i, ph, h => by
      obtain ⟨h1, h2, h3, h4, h5, h6⟩ := h
      exact ⟨h1, h2, h3, h4, by rw [txSigErrors_congr impl ws1 ws hk]; exact h5,
             goodBlocksFrom_congr impl ws1 ws hk rest (i + 1) b.hash h6⟩

theorem endHash_cons (ph : String) (hd : BlockM) (tl : List BlockM) :
    endHash ph (hd :: tl) = endHash hd.hash tl := by
  cases tl with
  | nil => simp [endHash]
  | cons c cs =>
      simp only [endHash, List.getLast?_cons_cons]
      rw [List.getLast?_eq_getLast (c :: cs) (by simp)]

theorem goodBlocksFrom_append (impl : VerifierImpl) (ws : List (String × WalletM)) (b : BlockM) :
    ∀ bs : List BlockM, ∀ i : Nat, ∀ ph : String,
      goodBlocksFrom impl ws i ph bs →
      b.index = i + bs.length →
      b.previousHash = endHash ph bs →
      b.hash = calculateBlockHash b.index b.previousHash b.timestamp b.merkleRoot b.nonce →
      b.merkleRoot = calculateMerkleRoot (b.txs.map Tx.hash) →
      txSigErrors impl ws b.txs = [] →
      goodBlocksFrom impl ws i ph (bs ++ [b])
  | [], i, ph, _, hidx, hprev, hh, hm, hs => by
      refine ⟨?_, ?_, hh, hm, hs, trivial⟩
      · simpa using hidx
      · simpa [endHash] using hprev
  | hd :: tl, i, ph, h, hidx, hprev, hh, hm, hs => by
      obtain ⟨h1, h2, h3, h4, h5, h6⟩ := h
      refine ⟨h1, h2, h3, h4, h5, ?_⟩
      exact goodBlocksFrom_append impl ws b tl (i + 1) hd.hash h6
        (by rw [hidx, List.length_cons]; omega)
        (by rw [hprev, endHash_cons])
        hh hm hs

theorem goodBlocksFrom_getLast (impl : VerifierImpl) (ws : List (String × WalletM)) :
    ∀ bs : List BlockM, ∀ i : Nat, ∀ ph : String, ∀ lb : BlockM,
      goodBlocksFrom impl ws i ph bs → bs.getLast? = some lb →
      lb.index + 1 = i + bs.length ∧ lb.hash = endHash ph bs
  | [], _, _, _, _, hl => by simp at hl
  | [b], i, ph, lb, h, hl => by
      simp only [List.getLast?_singleton, Option.some.injEq] at hl
      subst hl
      exact ⟨by rw [h.1]; simp, by simp [endHash]⟩
  | b :: c :: tl, i, ph, lb, h, hl => by
      obtain ⟨h1, h2, h3, h4, h5, h6⟩ := h
      rw [List.getLast?_cons_cons] at hl
      obtain ⟨ha, hb⟩ := goodBlocksFrom_getLast impl ws (c :: tl) (i + 1) b.hash lb h6 hl
      refine ⟨?_, by rw [hb, endHash_cons ph b (c :: tl)]⟩
      simp only [List.length_cons] at ha ⊢
      omega

theorem mineBlockStep_ok (impl : VerifierImpl) (fuel : Nat) (s : ChainState) (pending : List Tx)
    (ts : String) (d : Nat) (s1 : ChainState) (b : BlockM)
    (h : mineBlockStep impl fuel s pending ts d = (s1, Except.ok b)) :
    b.txs = selectValid impl s.wallets pending ∧
    b.merkleRoot = calculateMerkleRoot (b.txs.map Tx.hash) ∧
    b.hash = calculateBlockHash b.index b.previousHash b.timestamp b.merkleRoot b.nonce ∧
    b.timestamp = ts ∧
    b.index = (match s.blocks.getLast? with | some lb => lb.index + 1 | none => 0) ∧
    b.previousHash = (match s.blocks.getLast? with | some lb => lb.hash | none => genesisSentinel) ∧
    s1 = ⟨s.blocks ++ [b], commitBalances s.wallets b.txs⟩ ∧
    txSigErrors impl s.wallets b.txs = [] := by
  rw [mineBlockStep] at h
  split at h
  · exact absurd (congrArg Prod.snd h) (by simp)
  · dsimp only at h
    split at h
    · exact absurd (congrArg Prod.snd h) (by simp)
    · split at h
      · exact absurd (congrArg Prod.snd h) (by simp)
      · next hash nonce hpow =>
          have hb : _ = b := Except.ok.inj (congrArg Prod.snd h)
          have hs1 : s1 = _ := (congrArg Prod.fst h).symm
          subst hb
          have hspec := mineBlockLoop_spec fuel _ _ ts _ d 0 hash nonce hpow
          exact ⟨rfl, rfl, hspec.2, rfl, rfl, rfl, hs1,
                 txSigErrors_selectValid impl s.wallets pending⟩

theorem goodChain_step (impl : VerifierImpl) (fuel : Nat) (s : ChainState) (pending : List Tx)
    (ts : String) (d : Nat) (s1 : ChainState) (b : BlockM)
    (hg : goodChain impl s) (hstep : mineBlockStep impl fuel s pending ts d = (s1, Except.ok b)) :
    goodChain impl s1 := by
  obtain ⟨rest, hblocks, hgood⟩ := hg
  obtain ⟨htxs, hmr, hh, hts, hidx, hprev, hs1, hsig⟩ :=
    mineBlockStep_ok impl fuel s pending ts d s1 b hstep
  rw [hblocks] at hidx hprev hs1
  have hk : ∀ a, (findWallet (commitBalances s.wallets b.txs) a).map WalletM.publicKey =
      (findWallet s.wallets a).map WalletM.publicKey :=
    fun a => keyView_commitBalances b.txs s.wallets a
  have hidx2 : b.index = 1 + rest.length := by
    cases rest with
    | nil => simpa [genesisBlock] using hidx
    | cons x xs =>
        have hrl : (x :: xs) ≠ [] := by simp
        have hlast2 : (x :: xs).getLast? = some ((x :: xs).getLast hrl) :=
          List.getLast?_eq_getLast (x :: xs) hrl
        obtain ⟨ha, _⟩ := goodBlocksFrom_getLast impl s.wallets (x :: xs) 1 genesisHashConst
          ((x :: xs).getLast hrl) hgood hlast2
        simp only [List.getLast?_cons_cons, hlast2] at hidx
        simp only [List.length_cons] at ha ⊢
        omega
  have hprev2 : b.previousHash = endHash genesisHashConst rest := by
    cases rest with
    | nil => simpa [endHash, genesisBlock] using hprev
    | cons x xs =>
        have hrl : (x :: xs) ≠ [] := by simp
        have hlast2 : (x :: xs).getLast? = some ((x :: xs).getLast hrl) :=
          List.getLast?_eq_getLast (x :: xs) hrl
        obtain ⟨_, hbh⟩ := goodBlocksFrom_getLast impl s.wallets (x :: xs) 1 genesisHashConst
          ((x :: xs).getLast hrl) hgood hlast2
        simp only [List.getLast?_cons_cons, hlast2] at hprev
        rw [hprev]
        exact hbh
  refine ⟨rest ++ [b], ?_, ?_⟩
  · rw [hs1, htxs]; rfl
  · rw [hs1]
    show goodBlocksFrom impl (commitBalances s.wallets b.txs) 1 genesisHashConst (rest ++ [b])
    apply goodBlocksFrom_congr impl (commitBalances s.wallets b.txs) s.wallets hk
    exact goodBlocksFrom_append impl s.wallets b rest 1 genesisHashConst hgood
      hidx2 hprev2 hh hmr hsig

theorem reachable_goodChain (impl : VerifierImpl) (s : ChainState) (h : Reachable impl s) :
    goodChain impl s := by
  induction h with
  | genesis ws => exact ⟨[], rfl, trivial⟩
  | sealStep hr hstep ih => exact goodChain_step impl _ _ _ _ _ _ _ ih hstep

theorem validateAux_good (impl : VerifierImpl) (ws : List (String × WalletM)) :
    ∀ bs : List BlockM, ∀ i : Nat, ∀ pb : BlockM,
      goodBlocksFrom impl ws i pb.hash bs →
      validateAux impl ws i (some pb) bs = []
  | [], _, _, _ => rfl
  | b :: rest, i, pb, h => by
      obtain ⟨h1, h2, h3, h4, h5, h6⟩ := h
      have herr : blockErrors impl ws i (some pb) b = [] := by
        rw [blockErrors]
        rw [if_neg (by simp [h1]), if_neg (by simp [h2]), if_neg (by simp [← h3]),
            if_neg (by simp [← h4]), h5]
        simp
      rw [validateAux, herr]
      simp only [List.isEmpty_nil, if_true, List.nil_append]
      exact validateAux_good impl ws rest (i + 1) b h6

theorem genesis_hash_mismatch :
    genesisBlock.hash ≠ calculateBlockHash genesisBlock.index genesisBlock.previousHash
      genesisBlock.timestamp genesisBlock.merkleRoot genesisBlock.nonce := by
  decide

theorem genesis_blockErrors (impl : VerifierImpl) (ws : List (String × WalletM)) :
    blockErrors impl ws 0 none genesisBlock =
      [VError.hashMismatch genesisComputedHash genesisHashConst] := by
  rw [blockErrors]
  rw [if_neg (by decide), if_pos genesis_hash_mismatch, if_neg (by decide)]
  rfl

theorem validate_goodChain (impl : VerifierImpl) (s : ChainState) (hg : goodChain impl s) :
    validateBlockchain impl s = [genesisEntry] := by
  obtain ⟨rest, hblocks, hgood⟩ := hg
  rw [validateBlockchain, hblocks, validateAux, genesis_blockErrors]
  have htail : validateAux impl s.wallets 1 (some genesisBlock) rest = [] :=
    validateAux_good impl s.wallets rest 1 genesisBlock hgood
  rw [htail]
  rfl

/-- C1 corrected: on every chain built purely through the
`seal_block`+`commit` path starting from the genesis block, validation
reports exactly one error entry — the genesis block's hard-coded stored
hash does not match its recomputed block hash — and nothing else: every
sealed block passes the index, linkage, hash, Merkle-root, and signature
re-verification checks. Hence `isValid` is `false`, not `true`. -/
theorem validate_sealed_chain (impl : VerifierImpl) (s : ChainState) (h : Reachable impl s) :
    validateBlockchain impl s = [genesisEntry] ∧ isValidChain impl s = false := by
  have hv := validate_goodChain impl s (reachable_goodChain impl s h)
  exact ⟨hv, by rw [isValidChain, hv]; rfl⟩

/-- Witness for C1's corrected theorem at a freshly initialized chain. -/
theorem validate_sealed_chain_witness :
    validateBlockchain implOk (initialState []) = [genesisEntry] ∧
    isValidChain implOk (initialState []) = false :=
  validate_sealed_chain implOk (initialState []) (Reachable.genesis [])

/-- C1 counterexample: a two-block chain reached by sealing one admitted
transaction on top of genesis does not validate with zero errors —
`isValid` is `false` (the genesis stored hash fails recomputation). -/
theorem sealed_chain_not_valid :
    Reachable implOk chain2 ∧ isValidChain implOk chain2 = false :=
  ⟨@Reachable.sealStep implOk (initialState walletsAB) [txA1] "t2" 0 1 chain2 blk1
      (Reachable.genesis walletsAB) (by decide),
   by decide⟩
